import Mathlib

/-!
Verification of the segment-construction core of `video_to_project.py`
(repository `clip_crafter`).

Time values (Python `float` seconds) are modelled by `ℚ`; all comparisons
and arithmetic in the modelled code are order/field operations that `ℚ`
shares with the reals, so every branch of the source is represented
exactly.  Lists model Python lists; Python's stable ascending `sorted` is
modelled by `List.insertionSort (· ≤ ·)`.
-/

namespace ClipCrafter

/-- The grid-construction loop of `build_segments`
(`video_to_project.py` lines 123-129): threading the mutable `prev`
through the sorted point list, emitting `(prev, t)` whenever `t - prev > 0`,
and finally `(prev, total_duration)` when `total_duration - prev > 0`. -/
def gridGo (total_duration : ℚ) (prev : ℚ) : List ℚ → List (ℚ × ℚ)
  | [] => if total_duration - prev > 0 then [(prev, total_duration)] else []
  | t :: rest => (if t - prev > 0 then [(prev, t)] else []) ++ gridGo total_duration t rest

/-- The forward-merge loop of `build_segments` (lines 135-145): the mutable
accumulator `(cur_start, cur_end)` absorbs the next grid interval while it is
shorter than `min_duration`, emits it otherwise, and the final accumulator is
appended unconditionally. -/
def mergeGo (min_duration : ℚ) : ℚ → ℚ → List (ℚ × ℚ) → List (ℚ × ℚ)
  | cur_start, cur_end, [] => [(cur_start, cur_end)]
  | cur_start, cur_end, (s, e) :: rest =>
    if cur_end - cur_start < min_duration then
      mergeGo min_duration cur_start e rest
    else
      (cur_start, cur_end) :: mergeGo min_duration s e rest

/-- The trailing fix-up of `build_segments` (lines 148-152): when the list has
at least two intervals and the last one is shorter than `min_duration`, the
last interval is merged backward into the second-to-last (whose end becomes
the last end) and dropped. -/
def fixupGo (min_duration : ℚ) : List (ℚ × ℚ) → List (ℚ × ℚ)
  | [] => []
  | [x] => [x]
  | [(ps, pe), (ls, le)] =>
    if le - ls < min_duration then [(ps, le)] else [(ps, pe), (ls, le)]
  | x :: y :: z :: rest => x :: fixupGo min_duration (y :: z :: rest)

/-- The boundary-admissibility test of line 119: `0.0 < t < total_duration`. -/
def admissible (total_duration : ℚ) (t : ℚ) : Bool :=
  decide (0 < t ∧ t < total_duration)

/-- Lines 119-120 of `build_segments`: keep the admissible boundaries and sort
them ascending (`points = sorted([t for t in change_times if 0.0 < t < total]`). -/
def points_of (change_times : List ℚ) (total_duration : ℚ) : List ℚ :=
  List.insertionSort (· ≤ ·) (change_times.filter (admissible total_duration))

/-- Function `build_segments(change_times, total_duration, min_duration)`
(`video_to_project.py` lines 110-156): early return on `total_duration ≤ 0`;
grid construction from the sorted admissible points; early return on empty
grid; forward merge for the minimum duration; trailing fix-up; final filter
keeping only intervals with `end - start ≥ min_duration`. -/
def build_segments (change_times : List ℚ) (total_duration min_duration : ℚ) :
    List (ℚ × ℚ) :=
  if total_duration ≤ 0 then []
  else
    match gridGo total_duration 0 (points_of change_times total_duration) with
    | [] => []
    | (s, e) :: rest =>
      (fixupGo min_duration (mergeGo min_duration s e rest)).filter
        (fun p => decide (min_duration ≤ p.2 - p.1))

/-- Predicate `IsPartition a b l`: the intervals of `l` tile `[a, b)` left to right:
the first starts at `a`, each interval is non-degenerate (`start < end`), each
interval's end is the next interval's start, and the last ends at `b` (an
empty `l` tiles the empty interval, forcing `a = b`). -/
def IsPartition (a b : ℚ) : List (ℚ × ℚ) → Prop
  | [] => a = b
  | (s, e) :: rest => s = a ∧ s < e ∧ IsPartition e b rest

/-- The interior cut points of an interval list: every interval's end except
the last interval's. -/
def interior_points (l : List (ℚ × ℚ)) : List ℚ :=
  l.dropLast.map (fun p => p.2)

/-- The post-processing of `ffprobe_scene_changes`
(`video_to_project.py` line 104): from the list of successfully parsed
`pkt_pts_time` values, keep `t ≥ 0`, deduplicate (the Python set
construction) and sort ascending
(`sorted({t for t in times if t >= 0.0})`). -/
def ffprobe_scene_changes (times : List ℚ) : List ℚ :=
  List.insertionSort (· ≤ ·) ((times.filter (fun t => decide (0 ≤ t))).dedup)

/-- Decimal digit characters of a natural number, most significant first
(the standard base-10 rendering used by Python string formatting). -/
def natDigits (n : ℕ) : List Char :=
  if h : n < 10 then [Char.ofNat (48 + n)]
  else natDigits (n / 10) ++ [Char.ofNat (48 + n % 10)]
termination_by n
decreasing_by
  exact Nat.div_lt_self (by omega) (by norm_num)

/-- Zero-padding to width 3: the digit list of `f"{n:03d}"`. -/
def pad3 (n : ℕ) : List Char :=
  List.replicate (3 - (natDigits n).length) '0' ++ natDigits n

/-- Python's `round()` on an exact rational: nearest integer, ties to even
(banker's rounding), as used by `int(round(...))` and `f"{x:.3f}"`. -/
def pyRound (q : ℚ) : ℤ :=
  if q - ⌊q⌋ < 1 / 2 then ⌊q⌋
  else if 1 / 2 < q - ⌊q⌋ then ⌊q⌋ + 1
  else if ⌊q⌋ % 2 = 0 then ⌊q⌋ else ⌊q⌋ + 1

/-- Function `format_ts(value)` (lines 159-161), i.e. `f"{value:.3f}"`: the value
rounded to three fractional digits (ties to even) and rendered with a
decimal point. -/
def format_ts (value : ℚ) : String :=
  let m : ℤ := pyRound (value * 1000)
  (if m < 0 then "-" else "") ++ String.mk (natDigits (m.natAbs / 1000)) ++
    "." ++ String.mk (pad3 (m.natAbs % 1000))

/-- Function `cut_segment(input_path, output_path, start, end)` (lines 164-194) with
its observable effect reified: `none` models the early `return` taken when
`duration = max(0.0, end - start) ≤ 0` (no ffmpeg invocation, no output
file written, no exception raised); `some cmd` models invoking ffmpeg with
exactly the argument list `cmd` (the RuntimeError on a failed invocation can
only arise in the `some` branch). -/
def cut_segment (input_path output_path : String) (start finish : ℚ) :
    Option (List String) :=
  let duration := max 0 (finish - start)
  if duration ≤ 0 then none
  else
    some ["ffmpeg", "-y", "-ss", format_ts start, "-to", format_ts finish,
      "-i", input_path, "-c:v", "libx264", "-preset", "veryfast", "-crf",
      "23", "-c:a", "aac", "-b:a", "128k", output_path]

/-- Dataclass `MediaFile` (`scenario_manager.py` lines 15-21). -/
structure MediaFile where
  fileName : String
  url : String
  type : String
  originalName : Option String
deriving DecidableEq

/-- Dataclass `Scene` (`scenario_manager.py` lines 41-56), restricted to its stored
fields; `audioDuration : Optional[int]` is `Option ℤ`. -/
structure Scene where
  id : String
  title : String
  text : String
  description : String
  narratorDescription : String
  media : List MediaFile
  audioUrl : Option String
  audioDuration : Option ℤ
  isCompleted : Bool
  speed : ℤ
  recommendedSpeed : Option ℤ
deriving DecidableEq

/-- Python `Path(p).name` for a plain relative or absolute POSIX path: the part
after the last separator. -/
def path_name (p : String) : String :=
  String.mk ((p.data.reverse.takeWhile (fun c => c ≠ '/')).reverse)

/-- The scene list built by `create_project_from_segments`
(`video_to_project.py` lines 197-230): one scene per `(clip_path,
clip_duration)` descriptor via `enumerate(media_files, start=1)`, appended in
input order by `project.add_scene`.  The `uuid4()`-generated scene ids are
nondeterministic and are supplied by the parameter `ids` (the id of the
scene with 1-based index `idx` is `ids idx`); the `Project` wrapper's own id
and timestamps are wall-clock values and carry no scene information. -/
def create_project_scenes (ids : ℕ → String)
    (media_files : List (String × ℚ)) : List Scene :=
  media_files.enum.map (fun pr =>
    let idx := pr.1 + 1
    let file_name := path_name pr.2.1
    { id := ids idx
      title := "Сцена " ++ toString idx
      text := ""
      description := "Автоматически выделенный сегмент из видео"
      narratorDescription := ""
      media := [{ fileName := file_name, url := "media/" ++ file_name,
                  type := "video", originalName := some file_name }]
      audioUrl := none
      audioDuration := some (pyRound pr.2.2)
      isCompleted := false
      speed := 5
      recommendedSpeed := none })

/-- Python `Path(p).stem` (CPython semantics on the final component `name`):
`name[:i]` where `i` is the position of the last dot, provided
`0 < i < len(name) - 1`; otherwise `name` itself. -/
def path_stem (p : String) : String :=
  let cs := (path_name p).data
  let k := (cs.reverse.takeWhile (fun c => c ≠ '.')).length
  if 0 < k ∧ k < cs.length - 1 then String.mk (cs.take (cs.length - 1 - k))
  else String.mk cs

/-- Clip file name `out_name = f"{stem}_scene_{seg_idx:03d}.mp4"`
(`video_to_project.py` line 350). -/
def out_name (stem : String) (seg_idx : ℕ) : String :=
  stem ++ "_scene_" ++ String.mk (pad3 seg_idx) ++ ".mp4"

/-- The pre-computed clip output paths of one pipeline run
(`video_to_project.py` lines 348-351), relative to the shared `media`
directory: for each input file (paired with its built segment list), one
path per segment, indexed from 1 in segment order.  All paths live in the
single `media_dir`, so distinctness of these names is distinctness of the
written paths. -/
def clip_out_paths (files : List (String × List (ℚ × ℚ))) : List String :=
  files.flatMap (fun f =>
    (List.range f.2.length).map (fun i => out_name (path_stem f.1) (i + 1)))

/-- Reading a digit list back as a number. -/
def digitsVal (l : List Char) : ℕ :=
  l.foldl (fun acc c => 10 * acc + (c.toNat - 48)) 0

/-- An empty tiling forces its endpoints to agree. -/
theorem IsPartition_nil {a b : ℚ} (h : IsPartition a b []) : a = b := h

/-- A tiling of `[a, b)` has `a ≤ b`. -/
theorem IsPartition_le : ∀ (l : List (ℚ × ℚ)) (a b : ℚ), IsPartition a b l → a ≤ b
  | [], _, _, h => le_of_eq h
  | (_, e) :: rest, _, b, h => by
    obtain ⟨hs, hlt, hrest⟩ := h
    have := IsPartition_le rest e b hrest
    linarith

/-- Every interval of a tiling of `[a, b)` lies inside `[a, b]` and is
non-degenerate. -/
theorem IsPartition_mem_bounds :
    ∀ (l : List (ℚ × ℚ)) (a b : ℚ), IsPartition a b l →
      ∀ p ∈ l, a ≤ p.1 ∧ p.1 < p.2 ∧ p.2 ≤ b
  | [], _, _, _, p, hp => absurd hp (List.not_mem_nil p)
  | (s, e) :: rest, a, b, h, p, hp => by
    obtain ⟨hs, hlt, hrest⟩ := h
    rcases List.mem_cons.1 hp with hph | hpt
    · subst hph
      exact ⟨le_of_eq hs.symm, hlt, IsPartition_le rest e b hrest⟩
    · have := IsPartition_mem_bounds rest e b hrest p hpt
      exact ⟨by linarith [this.1], this.2.1, this.2.2⟩

/-- The intervals of a tiling are pairwise ordered: every earlier interval
ends no later than every later interval starts (no overlap). -/
theorem IsPartition_pairwise :
    ∀ (l : List (ℚ × ℚ)) (a b : ℚ), IsPartition a b l →
      List.Pairwise (fun p q : ℚ × ℚ => p.2 ≤ q.1) l
  | [], _, _, _ => List.Pairwise.nil
  | (s, e) :: rest, a, b, h => by
    obtain ⟨hs, hlt, hrest⟩ := h
    refine List.Pairwise.cons ?_ (IsPartition_pairwise rest e b hrest)
    intro q hq
    exact (IsPartition_mem_bounds rest e b hrest q hq).1

/-- A singleton tiling of `[a, b)` is exactly `[(a, b)]`. -/
theorem IsPartition_singleton {a b : ℚ} {p : ℚ × ℚ} (h : IsPartition a b [p]) :
    p = (a, b) := by
  obtain ⟨hs, hlt, hrest⟩ := h
  have : p.2 = b := hrest
  exact Prod.ext hs this

/-- Grid construction produces a non-empty tiling of `[prev, total)` whenever
the points are sorted ascending, lie strictly below `total` and at or above
`prev`, and `prev < total`. -/
theorem gridGo_partition :
    ∀ (points : List ℚ) (total prev : ℚ), points.Sorted (· ≤ ·) →
      (∀ t ∈ points, t < total) → prev < total → (∀ t ∈ points, prev ≤ t) →
      IsPartition prev total (gridGo total prev points) ∧
        gridGo total prev points ≠ []
  | [], total, prev, _, _, hprev, _ => by
    have hpos : total - prev > 0 := by linarith
    simp only [gridGo, if_pos hpos]
    exact ⟨⟨rfl, hprev, rfl⟩, by simp⟩
  | t :: rest, total, prev, hsort, hlt, hprev, hge => by
    have htt : t < total := hlt t (List.mem_cons_self t rest)
    have hrest_sort : rest.Sorted (· ≤ ·) := hsort.of_cons
    have hrest_lt : ∀ u ∈ rest, u < total := fun u hu => hlt u (List.mem_cons_of_mem t hu)
    have hrest_ge : ∀ u ∈ rest, t ≤ u := fun u hu => List.rel_of_sorted_cons hsort u hu
    have ih := gridGo_partition rest total t hrest_sort hrest_lt htt hrest_ge
    rcases lt_or_eq_of_le (hge t (List.mem_cons_self t rest)) with hcase | hcase
    · have hpos : t - prev > 0 := by linarith
      simp only [gridGo, if_pos hpos, List.singleton_append]
      exact ⟨⟨rfl, hcase, ih.1⟩, by simp⟩
    · have hpos : ¬ (t - prev > 0) := by
        rw [← hcase]; simp
      simp only [gridGo, if_neg hpos, List.nil_append]
      rw [hcase]
      exact ih

/-- The forward-merge loop turns a tiling of `[ce, b)` preceded by the
accumulator `(cs, ce)` into a non-empty tiling of `[cs, b)`. -/
theorem mergeGo_partition :
    ∀ (rest : List (ℚ × ℚ)) (minD cs ce b : ℚ), cs < ce → IsPartition ce b rest →
      IsPartition cs b (mergeGo minD cs ce rest) ∧ mergeGo minD cs ce rest ≠ []
  | [], minD, cs, ce, b, hlt, h => by
    have hb : ce = b := h
    subst hb
    exact ⟨⟨rfl, hlt, rfl⟩, by simp [mergeGo]⟩
  | (s, e) :: rest, minD, cs, ce, b, hlt, h => by
    obtain ⟨hs, hse, hrest⟩ := h
    by_cases hshort : ce - cs < minD
    · simp only [mergeGo, if_pos hshort]
      have : cs < e := by linarith
      exact mergeGo_partition rest minD cs e b this hrest
    · simp only [mergeGo, if_neg hshort]
      have ih := mergeGo_partition rest minD s e b hse hrest
      refine ⟨⟨rfl, hlt, ?_⟩, by simp⟩
      rw [← hs]
      exact ih.1

/-- The forward-merge loop never returns the empty list. -/
theorem mergeGo_ne_nil :
    ∀ (rest : List (ℚ × ℚ)) (minD cs ce : ℚ), mergeGo minD cs ce rest ≠ []
  | [], _, _, _ => by simp [mergeGo]
  | (s, e) :: rest, minD, cs, ce => by
    by_cases hshort : ce - cs < minD
    · simp only [mergeGo, if_pos hshort]
      exact mergeGo_ne_nil rest minD cs e
    · simp only [mergeGo, if_neg hshort]
      simp

/-- Every interval emitted by the forward-merge loop, except possibly the
last, has duration at least `minD`. -/
theorem mergeGo_dropLast_min :
    ∀ (rest : List (ℚ × ℚ)) (minD cs ce : ℚ),
      ∀ p ∈ (mergeGo minD cs ce rest).dropLast, minD ≤ p.2 - p.1
  | [], minD, cs, ce => by simp [mergeGo]
  | (s, e) :: rest, minD, cs, ce => by
    by_cases hshort : ce - cs < minD
    · simp only [mergeGo, if_pos hshort]
      exact mergeGo_dropLast_min rest minD cs e
    · simp only [mergeGo, if_neg hshort]
      rw [List.dropLast_cons_of_ne_nil (mergeGo_ne_nil rest minD s e)]
      intro p hp
      rcases List.mem_cons.1 hp with hph | hpt
      · subst hph; simpa using le_of_not_lt hshort
      · exact mergeGo_dropLast_min rest minD s e p hpt

/-- The trailing fix-up preserves tilings. -/
theorem fixupGo_partition :
    ∀ (l : List (ℚ × ℚ)) (minD a b : ℚ), IsPartition a b l →
      IsPartition a b (fixupGo minD l)
  | [], _, _, _, h => h
  | [_], _, _, _, h => h
  | [(ps, pe), (ls, le)], minD, a, b, h => by
    obtain ⟨h1, h2, h3, h4, h5⟩ := h
    simp only [fixupGo]
    split_ifs with hshort
    · exact ⟨h1, by linarith, h5⟩
    · exact ⟨h1, h2, h3, h4, h5⟩
  | (xs, xe) :: (ys, ye) :: (zs, ze) :: rest, minD, a, b, h => by
    obtain ⟨h1, h2, h3⟩ := h
    simp only [fixupGo]
    exact ⟨h1, h2, fixupGo_partition ((ys, ye) :: (zs, ze) :: rest) minD xe b h3⟩

/-- The trailing fix-up of a non-empty list is non-empty. -/
theorem fixupGo_ne_nil :
    ∀ (l : List (ℚ × ℚ)) (minD : ℚ), l ≠ [] → fixupGo minD l ≠ []
  | [], _, h => absurd rfl h
  | [_], _, _ => by simp [fixupGo]
  | [(ps, pe), (ls, le)], minD, _ => by
    simp only [fixupGo]
    split_ifs <;> simp
  | (_, _) :: (_, _) :: (_, _) :: _, _, _ => by
    simp only [fixupGo]
    simp

/-- After the trailing fix-up of a tiling with at least two intervals whose
non-last intervals all have duration at least `minD`, every interval has
duration at least `minD`. -/
theorem fixupGo_all_min :
    ∀ (l : List (ℚ × ℚ)) (minD a b : ℚ), 2 ≤ l.length → IsPartition a b l →
      (∀ p ∈ l.dropLast, minD ≤ p.2 - p.1) →
      ∀ p ∈ fixupGo minD l, minD ≤ p.2 - p.1
  | [], _, _, _, hlen, _, _ => by simp at hlen
  | [_], _, _, _, hlen, _, _ => by simp at hlen
  | [(ps, pe), (ls, le)], minD, a, b, _, h, hdrop => by
    obtain ⟨h1, h2, h3, h4, h5⟩ := h
    have hmin : minD ≤ pe - ps := hdrop (ps, pe) (by simp)
    simp only [fixupGo]
    split_ifs with hshort
    · intro p hp
      simp only [List.mem_singleton] at hp
      subst hp
      simp only
      linarith
    · intro p hp
      rcases List.mem_cons.1 hp with hph | hpt
      · subst hph; exact hmin
      · simp only [List.mem_singleton] at hpt
        subst hpt
        simpa using le_of_not_lt hshort
  | (xs, xe) :: (ys, ye) :: (zs, ze) :: rest, minD, a, b, _, h, hdrop => by
    obtain ⟨h1, h2, h3⟩ := h
    have htail_ne : ((ys, ye) :: (zs, ze) :: rest : List (ℚ × ℚ)) ≠ [] := by simp
    have hdrop_cons :
        ((xs, xe) :: (ys, ye) :: (zs, ze) :: rest : List (ℚ × ℚ)).dropLast =
          (xs, xe) :: ((ys, ye) :: (zs, ze) :: rest).dropLast :=
      List.dropLast_cons_of_ne_nil htail_ne
    simp only [fixupGo]
    intro p hp
    rcases List.mem_cons.1 hp with hph | hpt
    · subst hph
      apply hdrop
      rw [hdrop_cons]
      exact List.mem_cons_self _ _
    · refine fixupGo_all_min ((ys, ye) :: (zs, ze) :: rest) minD xe b (by simp) h3 ?_ p hpt
      intro q hq
      apply hdrop
      rw [hdrop_cons]
      exact List.mem_cons_of_mem _ hq

/-- When every interval already meets the minimum duration, the forward-merge
loop emits its input unchanged. -/
theorem mergeGo_eq_self :
    ∀ (rest : List (ℚ × ℚ)) (minD cs ce : ℚ), minD ≤ ce - cs →
      (∀ p ∈ rest, minD ≤ p.2 - p.1) → mergeGo minD cs ce rest = (cs, ce) :: rest
  | [], _, _, _, _, _ => by simp [mergeGo]
  | (s, e) :: rest, minD, cs, ce, hce, hall => by
    simp only [mergeGo, if_neg (not_lt.2 hce)]
    have hse : minD ≤ e - s := by simpa using hall (s, e) (List.mem_cons_self _ _)
    have := mergeGo_eq_self rest minD s e hse
      (fun p hp => hall p (List.mem_cons_of_mem _ hp))
    rw [this]

/-- When every interval already meets the minimum duration, the trailing
fix-up does nothing. -/
theorem fixupGo_eq_self :
    ∀ (l : List (ℚ × ℚ)) (minD : ℚ), (∀ p ∈ l, minD ≤ p.2 - p.1) →
      fixupGo minD l = l
  | [], _, _ => rfl
  | [_], _, _ => rfl
  | [(ps, pe), (ls, le)], minD, hall => by
    have : minD ≤ le - ls := by simpa using hall (ls, le) (by simp)
    simp only [fixupGo, if_neg (not_lt.2 this)]
  | (xs, xe) :: (ys, ye) :: (zs, ze) :: rest, minD, hall => by
    simp only [fixupGo]
    rw [fixupGo_eq_self ((ys, ye) :: (zs, ze) :: rest) minD
      (fun p hp => hall p (List.mem_cons_of_mem _ hp))]

/-- The sorted admissible point list is sorted. -/
theorem points_of_sorted (xs : List ℚ) (total : ℚ) :
    (points_of xs total).Sorted (· ≤ ·) :=
  List.sorted_insertionSort _ _

/-- Every admissible point lies strictly inside `(0, total)`. -/
theorem points_of_mem {xs : List ℚ} {total t : ℚ} (h : t ∈ points_of xs total) :
    0 < t ∧ t < total := by
  rw [points_of, List.mem_insertionSort] at h
  have := List.of_mem_filter h
  simpa [admissible] using this

/-- For a positive total duration, the grid is a non-empty tiling of
`[0, total)`. -/
theorem build_segments_grid (xs : List ℚ) (total : ℚ) (htot : 0 < total) :
    IsPartition 0 total (gridGo total 0 (points_of xs total)) ∧
      gridGo total 0 (points_of xs total) ≠ [] :=
  gridGo_partition (points_of xs total) total 0 (points_of_sorted xs total)
    (fun _ ht => (points_of_mem ht).2) htot (fun _ ht => le_of_lt (points_of_mem ht).1)

/-- Non-positive total duration returns the empty list (line 115-116). -/
theorem build_segments_of_nonpos (xs : List ℚ) (total minD : ℚ) (h : total ≤ 0) :
    build_segments xs total minD = [] := by
  rw [build_segments, if_pos h]

/-- Unfolding of `build_segments` once the grid is known to be a cons. -/
theorem build_segments_eq_of_grid (xs : List ℚ) (total minD : ℚ) (htot : 0 < total)
    (s e : ℚ) (rest : List (ℚ × ℚ))
    (hgrid : gridGo total 0 (points_of xs total) = (s, e) :: rest) :
    build_segments xs total minD =
      (fixupGo minD (mergeGo minD s e rest)).filter
        (fun p => decide (minD ≤ p.2 - p.1)) := by
  rw [build_segments, if_neg (not_le.2 htot), hgrid]

/-- Every returned interval survives the final filter, hence has duration at
least `minD` (line 155). -/
theorem build_segments_mem_min (xs : List ℚ) (total minD : ℚ) :
    ∀ p ∈ build_segments xs total minD, minD ≤ p.2 - p.1 := by
  intro p hp
  by_cases htot : total ≤ 0
  · rw [build_segments_of_nonpos xs total minD htot] at hp
    simp at hp
  · have htot' : 0 < total := not_le.1 htot
    obtain ⟨_, hne⟩ := build_segments_grid xs total htot'
    rcases hgrid : gridGo total 0 (points_of xs total) with _ | ⟨⟨s, e⟩, rest⟩
    · exact absurd hgrid hne
    · rw [build_segments_eq_of_grid xs total minD htot' s e rest hgrid] at hp
      have := List.of_mem_filter hp
      simpa using this

/-- Master structural theorem: for a positive total duration, a non-empty
result is a tiling of `[0, total)`, and the result is non-empty whenever
`minD ≤ total`. -/
theorem build_segments_main (xs : List ℚ) (total minD : ℚ) (htot : 0 < total) :
    (build_segments xs total minD ≠ [] →
      IsPartition 0 total (build_segments xs total minD)) ∧
    (minD ≤ total → build_segments xs total minD ≠ []) := by
  obtain ⟨hgpart, hgne⟩ := build_segments_grid xs total htot
  rcases hgrid : gridGo total 0 (points_of xs total) with _ | ⟨⟨s, e⟩, rest⟩
  · exact absurd hgrid hgne
  rw [hgrid] at hgpart
  obtain ⟨hs, hse, hrest⟩ := hgpart
  subst hs
  have hb := build_segments_eq_of_grid xs total minD htot 0 e rest hgrid
  obtain ⟨hmpart, hmne⟩ := mergeGo_partition rest minD 0 e total hse hrest
  have hmdrop := mergeGo_dropLast_min rest minD 0 e
  rcases hmerged : mergeGo minD 0 e rest with _ | ⟨p0, mrest⟩
  · exact absurd hmerged hmne
  rw [hmerged] at hmpart
  rcases mrest with _ | ⟨p1, mrest2⟩
  · -- the forward merge produced a single interval, necessarily (0, total)
    have hp0 : p0 = (0, total) := IsPartition_singleton hmpart
    subst hp0
    have hfix : fixupGo minD [(0, total)] = [(0, total)] := by simp [fixupGo]
    rw [hmerged, hfix] at hb
    by_cases hmd : minD ≤ total
    · have hkeep : decide (minD ≤ ((0 : ℚ), total).2 - ((0 : ℚ), total).1) = true := by
        simp only [decide_eq_true_eq]
        simpa using hmd
      rw [List.filter_cons, if_pos hkeep, List.filter_nil] at hb
      constructor
      · intro _
        rw [hb]
        exact ⟨rfl, htot, rfl⟩
      · intro _
        rw [hb]
        simp
    · have hdrop : decide (minD ≤ ((0 : ℚ), total).2 - ((0 : ℚ), total).1) = false := by
        simp only [decide_eq_false_iff_not]
        simpa using hmd
      rw [List.filter_cons, if_neg (by rw [hdrop]; simp), List.filter_nil] at hb
      constructor
      · intro hne
        exact absurd hb hne
      · intro hmd'
        exact absurd hmd' hmd
  · -- at least two merged intervals: everything survives the filter
    have hlen : 2 ≤ (p0 :: p1 :: mrest2 : List (ℚ × ℚ)).length := by simp
    have hall : ∀ p ∈ fixupGo minD (p0 :: p1 :: mrest2), minD ≤ p.2 - p.1 := by
      apply fixupGo_all_min (p0 :: p1 :: mrest2) minD 0 total hlen hmpart
      intro p hp
      rw [← hmerged] at hp
      exact hmdrop p hp
    have hfilter :
        (fixupGo minD (p0 :: p1 :: mrest2)).filter
          (fun p => decide (minD ≤ p.2 - p.1)) = fixupGo minD (p0 :: p1 :: mrest2) := by
      rw [List.filter_eq_self]
      intro p hp
      simpa using hall p hp
    rw [hmerged, hfilter] at hb
    constructor
    · intro _
      rw [hb]
      exact fixupGo_partition (p0 :: p1 :: mrest2) minD 0 total hmpart
    · intro _
      rw [hb]
      exact fixupGo_ne_nil (p0 :: p1 :: mrest2) minD (by simp)

/-- C1: for every boundary list, every `totalDuration > 0` and every
`minDuration`, a non-empty `build_segments` result is a partition of
`[0, totalDuration)`: `IsPartition` says the first interval starts at `0`,
each interval's end equals the next interval's start (hence the list is
sorted by start), and the last interval ends at `totalDuration`; the
`Pairwise` clause states explicitly that no two intervals overlap. -/
theorem build_segments_is_partition (xs : List ℚ) (total minD : ℚ)
    (htot : 0 < total) (hne : build_segments xs total minD ≠ []) :
    IsPartition 0 total (build_segments xs total minD) ∧
      List.Pairwise (fun p q : ℚ × ℚ => p.2 ≤ q.1)
        (build_segments xs total minD) := by
  have h := (build_segments_main xs total minD htot).1 hne
  exact ⟨h, IsPartition_pairwise _ 0 total h⟩

theorem build_segments_is_partition_witness :
    IsPartition 0 10 (build_segments [3] 10 5) ∧
      List.Pairwise (fun p q : ℚ × ℚ => p.2 ≤ q.1) (build_segments [3] 10 5) :=
  build_segments_is_partition [3] 10 5 (by norm_num)
    (by norm_num [build_segments, points_of, admissible, gridGo, mergeGo,
      fixupGo, List.insertionSort, List.orderedInsert, List.filter])

/-- C2: every interval of the output has duration at least `minDuration`, and
the output is empty exactly when `totalDuration < minDuration` or
`totalDuration ≤ 0`. -/
theorem build_segments_min_duration (xs : List ℚ) (total minD : ℚ)
    (hmin : 0 < minD) :
    (∀ p ∈ build_segments xs total minD, minD ≤ p.2 - p.1) ∧
      (build_segments xs total minD = [] ↔ total < minD ∨ total ≤ 0) := by
  refine ⟨build_segments_mem_min xs total minD, ?_, ?_⟩
  · intro hempty
    by_contra hcon
    push_neg at hcon
    obtain ⟨hmd, htot⟩ := hcon
    exact (build_segments_main xs total minD htot).2 hmd hempty
  · intro hcase
    rcases hcase with hlt | hnp
    · by_cases htot : total ≤ 0
      · exact build_segments_of_nonpos xs total minD htot
      · have htot' : 0 < total := not_le.1 htot
        by_contra hne
        have hpart := (build_segments_main xs total minD htot').1 hne
        rcases hq : build_segments xs total minD with _ | ⟨p, ps⟩
        · exact hne hq
        · have hmem : p ∈ build_segments xs total minD := by
            rw [hq]; exact List.mem_cons_self _ _
          have h1 := build_segments_mem_min xs total minD p hmem
          have h2 := IsPartition_mem_bounds _ 0 total hpart p hmem
          linarith [h2.1, h2.2.2]
    · exact build_segments_of_nonpos xs total minD hnp

theorem build_segments_min_duration_witness :
    (∀ p ∈ build_segments [] 2 5, (5 : ℚ) ≤ p.2 - p.1) ∧
      (build_segments [] 2 5 = [] ↔ (2 : ℚ) < 5 ∨ (2 : ℚ) ≤ 0) :=
  build_segments_min_duration [] 2 5 (by norm_num)

/-- C3: the worked example - `build_segments([2, 4, 9], 10, 3)` merges the
too-short candidates `(0,2)` and `(2,4)` forward into `(0,4)` and absorbs the
trailing short remainder `(9,10)` backward into `(4,9)`, giving exactly
`[(0,4), (4,10)]`. -/
theorem build_segments_worked_example :
    build_segments [2, 4, 9] 10 3 = [(0, 4), (4, 10)] := by
  norm_num [build_segments, points_of, admissible, gridGo, mergeGo, fixupGo,
    List.insertionSort, List.orderedInsert, List.filter]

/-- C5: degenerate-input handling - `totalDuration ≤ 0` yields the empty
list; boundaries outside the open interval `(0, totalDuration)` (including
boundaries exactly at `0` or at `totalDuration`, which `admissible` rejects)
never affect the result; and with no admissible boundary the result is the
single interval `(0, totalDuration)` when `minDuration ≤ totalDuration` and
empty otherwise. -/
theorem build_segments_degenerate (xs : List ℚ) (total minD : ℚ) :
    (total ≤ 0 → build_segments xs total minD = []) ∧
      build_segments xs total minD =
        build_segments (xs.filter (admissible total)) total minD ∧
      (xs.filter (admissible total) = [] → 0 < total →
        build_segments xs total minD =
          if minD ≤ total then [(0, total)] else []) := by
  refine ⟨fun h => build_segments_of_nonpos xs total minD h, ?_, ?_⟩
  · have hpts : points_of (xs.filter (admissible total)) total =
        points_of xs total := by
      rw [points_of, points_of, List.filter_filter]
      simp only [Bool.and_self]
    rw [build_segments, build_segments, hpts]
  · intro hflt htot
    have hpts : points_of xs total = [] := by
      rw [points_of, hflt]
      rfl
    have hgrid : gridGo total 0 (points_of xs total) = [(0, total)] := by
      rw [hpts]
      simp only [gridGo]
      rw [if_pos (by linarith : total - 0 > 0)]
    rw [build_segments_eq_of_grid xs total minD htot 0 total [] hgrid]
    simp only [mergeGo, fixupGo]
    by_cases hmd : minD ≤ total
    · rw [if_pos hmd, List.filter_cons,
        if_pos (by simp only [decide_eq_true_eq]; simpa using hmd),
        List.filter_nil]
    · rw [if_neg hmd, List.filter_cons,
        if_neg (by simp only [decide_eq_true_eq]; simpa using hmd),
        List.filter_nil]

theorem build_segments_degenerate_witness :
    build_segments [0, 12] 12 5 = if (5 : ℚ) ≤ 12 then [(0, 12)] else [] :=
  (build_segments_degenerate [0, 12] 12 5).2.2
    (by norm_num [admissible, List.filter]) (by norm_num)

/-- The interior cut points of a tiling of `[a, b)` are strictly increasing
and lie strictly inside `(a, b)`. -/
theorem interior_points_sorted_mem :
    ∀ (l : List (ℚ × ℚ)) (a b : ℚ), IsPartition a b l →
      (interior_points l).Sorted (· < ·) ∧
        ∀ x ∈ interior_points l, a < x ∧ x < b
  | [], _, _, _ => by simp [interior_points]
  | [(s, e)], _, _, _ => by simp [interior_points]
  | (s, e) :: (s2, e2) :: rest, a, b, h => by
    obtain ⟨h1, h2, h3⟩ := h
    have hint : interior_points ((s, e) :: (s2, e2) :: rest) =
        e :: interior_points ((s2, e2) :: rest) := by
      rw [interior_points, interior_points,
        List.dropLast_cons_of_ne_nil (by simp : ((s2, e2) :: rest : List (ℚ × ℚ)) ≠ [])]
      rfl
    obtain ⟨ih_sort, ih_mem⟩ := interior_points_sorted_mem ((s2, e2) :: rest) e b h3
    obtain ⟨h4, h5, h6⟩ := h3
    have heb : e < b := by
      have := IsPartition_le rest e2 b h6
      linarith
    rw [hint]
    constructor
    · exact List.sorted_cons.2 ⟨fun x hx => (ih_mem x hx).1, ih_sort⟩
    · intro x hx
      rcases List.mem_cons.1 hx with hxe | hxt
      · subst hxe
        exact ⟨by linarith, heb⟩
      · have := ih_mem x hxt
        exact ⟨by linarith [this.1], this.2⟩

/-- Rebuilding the grid from a tiling's interior cut points reproduces the
tiling. -/
theorem gridGo_interior :
    ∀ (l : List (ℚ × ℚ)) (b prev : ℚ), IsPartition prev b l →
      gridGo b prev (interior_points l) = l
  | [], b, prev, h => by
    have : prev = b := h
    subst this
    simp [interior_points, gridGo]
  | [(s, e)], b, prev, h => by
    obtain ⟨h1, h2, h3⟩ := h
    have hb : e = b := h3
    subst hb
    subst h1
    simp only [interior_points, List.dropLast_single, List.map_nil, gridGo]
    rw [if_pos (by linarith : e - s > 0)]
  | (s, e) :: (s2, e2) :: rest, b, prev, h => by
    obtain ⟨h1, h2, h3⟩ := h
    subst h1
    have hint : interior_points ((s, e) :: (s2, e2) :: rest) =
        e :: interior_points ((s2, e2) :: rest) := by
      rw [interior_points, interior_points,
        List.dropLast_cons_of_ne_nil (by simp : ((s2, e2) :: rest : List (ℚ × ℚ)) ≠ [])]
      rfl
    rw [hint]
    simp only [gridGo]
    rw [if_pos (by linarith : e - s > 0), List.singleton_append,
      gridGo_interior ((s2, e2) :: rest) b e h3]

/-- C4: `build_segments` is idempotent on its own cut points - rebuilding
from the interior endpoints of a non-empty result reproduces that result. -/
theorem build_segments_idempotent (xs : List ℚ) (total minD : ℚ)
    (hne : build_segments xs total minD ≠ []) :
    build_segments (interior_points (build_segments xs total minD)) total minD =
      build_segments xs total minD := by
  have htot : 0 < total := by
    by_contra h
    exact hne (build_segments_of_nonpos xs total minD (not_lt.1 h))
  have hpart := (build_segments_main xs total minD htot).1 hne
  have hmin := build_segments_mem_min xs total minD
  obtain ⟨hsorted, hmem⟩ :=
    interior_points_sorted_mem (build_segments xs total minD) 0 total hpart
  have hfilter : (interior_points (build_segments xs total minD)).filter
      (admissible total) = interior_points (build_segments xs total minD) := by
    rw [List.filter_eq_self]
    intro x hx
    have := hmem x hx
    simp [admissible, this.1, this.2]
  have hsorted_le : (interior_points (build_segments xs total minD)).Sorted
      (· ≤ ·) :=
    List.Pairwise.imp (fun h => le_of_lt h) hsorted
  have hpts : points_of (interior_points (build_segments xs total minD)) total =
      interior_points (build_segments xs total minD) := by
    rw [points_of, hfilter]
    exact hsorted_le.insertionSort_eq
  have hgrid : gridGo total 0
      (points_of (interior_points (build_segments xs total minD)) total) =
      build_segments xs total minD := by
    rw [hpts]
    exact gridGo_interior (build_segments xs total minD) total 0 hpart
  rcases hPc : build_segments xs total minD with _ | ⟨⟨s, e⟩, rest⟩
  · exact absurd hPc hne
  · rw [hPc] at hgrid
    rw [build_segments_eq_of_grid _ total minD htot s e rest hgrid]
    have hmins : ∀ p ∈ ((s, e) :: rest : List (ℚ × ℚ)), minD ≤ p.2 - p.1 := by
      rw [← hPc]
      exact hmin
    have hminhead : minD ≤ e - s := by
      simpa using hmins (s, e) (List.mem_cons_self _ _)
    rw [mergeGo_eq_self rest minD s e hminhead
      (fun p hp => hmins p (List.mem_cons_of_mem _ hp))]
    rw [fixupGo_eq_self ((s, e) :: rest) minD hmins]
    rw [List.filter_eq_self.2 (fun p hp => by simpa using hmins p hp)]

theorem build_segments_idempotent_witness :
    build_segments (interior_points (build_segments [2, 4, 9] 10 3)) 10 3 =
      build_segments [2, 4, 9] 10 3 :=
  build_segments_idempotent [2, 4, 9] 10 3 (by
    have hval : build_segments [2, 4, 9] 10 3 = [(0, 4), (4, 10)] := by
      norm_num [build_segments, points_of, admissible, gridGo, mergeGo,
        fixupGo, List.insertionSort, List.orderedInsert, List.filter]
    rw [hval]
    simp)

/-- Dropping duplicates from a sorted point list does not change the grid:
a duplicate point produces a zero-width candidate, which is skipped. -/
theorem gridGo_dedup :
    ∀ (n : ℕ) (l : List ℚ), l.length ≤ n → l.Sorted (· ≤ ·) →
      ∀ (total prev : ℚ), gridGo total prev l = gridGo total prev l.dedup := by
  intro n
  induction n with
  | zero =>
    intro l hl _ total prev
    have hnil : l = [] := List.length_eq_zero.1 (Nat.le_zero.1 hl)
    subst hnil
    rw [List.dedup_nil]
  | succ n ih =>
    intro l hl hsort total prev
    match l with
    | [] => rw [List.dedup_nil]
    | t :: rest =>
      by_cases hmem : t ∈ rest
      · obtain ⟨rest2, hrest2⟩ : ∃ rest2, rest = t :: rest2 := by
          cases rest with
          | nil => simp at hmem
          | cons u rest2 =>
            refine ⟨rest2, ?_⟩
            have hu1 : t ≤ u :=
              List.rel_of_sorted_cons hsort u (List.mem_cons_self u rest2)
            have hut : u = t := by
              rcases List.mem_cons.1 hmem with h | h
              · exact h.symm
              · exact le_antisymm (List.rel_of_sorted_cons hsort.of_cons t h) hu1
            rw [hut]
        subst hrest2
        have hstep : gridGo total prev (t :: t :: rest2) =
            gridGo total prev (t :: rest2) := by
          simp only [gridGo]
          rw [if_neg (by simp : ¬ ((t : ℚ) - t > 0))]
          simp
        rw [hstep, List.dedup_cons_of_mem (by simp : t ∈ t :: rest2)]
        exact ih (t :: rest2) (by simpa using Nat.succ_le_succ_iff.1 (by simpa using hl))
          hsort.of_cons total prev
      · rw [List.dedup_cons_of_not_mem hmem]
        simp only [gridGo]
        rw [ih rest (by simpa using hl) hsort.of_cons total t]

/-- C9: `build_segments` depends only on the membership of the boundary list:
lists with the same elements (in particular permutations and lists with
duplicated elements) produce equal results. -/
theorem build_segments_set_invariant (xs ys : List ℚ) (total minD : ℚ)
    (h : ∀ t : ℚ, t ∈ xs ↔ t ∈ ys) :
    build_segments xs total minD = build_segments ys total minD := by
  by_cases htot : total ≤ 0
  · rw [build_segments_of_nonpos xs total minD htot,
      build_segments_of_nonpos ys total minD htot]
  · have hdedup : (points_of xs total).dedup = (points_of ys total).dedup := by
      apply List.eq_of_perm_of_sorted (r := (· ≤ ·))
      · refine (List.perm_ext_iff_of_nodup (List.nodup_dedup _)
          (List.nodup_dedup _)).2 ?_
        intro t
        simp [List.mem_dedup, points_of, List.mem_filter, h t]
      · exact List.Pairwise.sublist (List.dedup_sublist _) (points_of_sorted xs total)
      · exact List.Pairwise.sublist (List.dedup_sublist _) (points_of_sorted ys total)
    have hgrid : gridGo total 0 (points_of xs total) =
        gridGo total 0 (points_of ys total) := by
      rw [gridGo_dedup (points_of xs total).length (points_of xs total) le_rfl
        (points_of_sorted xs total) total 0,
        gridGo_dedup (points_of ys total).length (points_of ys total) le_rfl
        (points_of_sorted ys total) total 0, hdedup]
    rw [build_segments, build_segments, hgrid]

theorem build_segments_set_invariant_witness :
    build_segments [4, 2] 10 3 = build_segments [2, 4, 4] 10 3 :=
  build_segments_set_invariant [4, 2] [2, 4, 4] 10 3
    (by intro t; constructor <;> (intro h; simp at h; rcases h with h | h <;> simp [h]))

/-- C8: the returned boundary list has no duplicate, is sorted strictly
ascending, and contains only non-negative values. -/
theorem ffprobe_scene_changes_spec (times : List ℚ) :
    (ffprobe_scene_changes times).Nodup ∧
      (ffprobe_scene_changes times).Sorted (· < ·) ∧
      ∀ t ∈ ffprobe_scene_changes times, 0 ≤ t := by
  have hnodup : (ffprobe_scene_changes times).Nodup :=
    ((List.perm_insertionSort (· ≤ ·) _).symm).nodup (List.nodup_dedup _)
  have hle : (ffprobe_scene_changes times).Sorted (· ≤ ·) :=
    List.sorted_insertionSort _ _
  refine ⟨hnodup, ?_, ?_⟩
  · exact List.Pairwise.imp (fun h => lt_of_le_of_ne h.1 h.2)
      (List.Pairwise.and hle hnodup)
  · intro t ht
    rw [ffprobe_scene_changes, List.mem_insertionSort, List.mem_dedup] at ht
    simpa using (List.mem_filter.1 ht).2

/-- C10: for a degenerate interval (`end ≤ start`), `cut_segment` returns
immediately: no external tool invocation, no output file, no error
(the `none` result). -/
theorem cut_segment_degenerate (input_path output_path : String)
    (start finish : ℚ) (h : finish ≤ start) :
    cut_segment input_path output_path start finish = none := by
  have hmax : max 0 (finish - start) ≤ 0 :=
    max_le le_rfl (by linarith)
  simp only [cut_segment]
  rw [if_pos hmax]

theorem cut_segment_degenerate_witness :
    cut_segment "in.mp4" "out.mp4" 5 5 = none :=
  cut_segment_degenerate "in.mp4" "out.mp4" 5 5 le_rfl

/-- C6 (amended): one scene per descriptor, in input order, with sequential
1-based titles - the source's Russian template `"Сцена N"` - and
`audioDuration = round(duration)` with Python's `round`; no merging,
renumbering, or reordering. -/
theorem create_project_scenes_spec (ids : ℕ → String)
    (media_files : List (String × ℚ)) :
    (create_project_scenes ids media_files).length = media_files.length ∧
      ∀ i : ℕ, (create_project_scenes ids media_files).get? i =
        (media_files.get? i).map (fun f =>
          { id := ids (i + 1)
            title := "Сцена " ++ toString (i + 1)
            text := ""
            description := "Автоматически выделенный сегмент из видео"
            narratorDescription := ""
            media := [{ fileName := path_name f.1,
                        url := "media/" ++ path_name f.1,
                        type := "video",
                        originalName := some (path_name f.1) }]
            audioUrl := none
            audioDuration := some (pyRound f.2)
            isCompleted := false
            speed := 5
            recommendedSpeed := none }) := by
  constructor
  · simp [create_project_scenes]
  · intro i
    rw [create_project_scenes, List.get?_map, List.get?_enum]
    cases h : media_files.get? i <;> simp

/-- C6 counterexample to the claim as stated: the scene titles follow the
source's template `"Сцена N"`, which differs from the claimed literal
`"Scene N"`. -/
theorem create_project_scenes_title_counterexample :
    (create_project_scenes (fun _ => "scene-0") [("clip.mp4", 3)]).map
        Scene.title = ["Сцена 1"] ∧ ("Сцена 1" : String) ≠ "Scene 1" := by
  constructor
  · rfl
  · decide

/-- The decimal digit characters are digits. -/
theorem digitChar_isDigit (d : ℕ) (h : d < 10) :
    (Char.ofNat (48 + d)).isDigit = true := by
  interval_cases d <;> decide

/-- The decimal digit characters decode back to their value. -/
theorem digitChar_toNat (d : ℕ) (h : d < 10) :
    (Char.ofNat (48 + d)).toNat = 48 + d := by
  interval_cases d <;> decide

/-- Every character of the base-10 rendering is a digit. -/
theorem natDigits_isDigit (n : ℕ) : ∀ c ∈ natDigits n, c.isDigit = true := by
  induction n using Nat.strong_induction_on with
  | _ n ih =>
    rw [natDigits]
    split_ifs with h
    · intro c hc
      simp only [List.mem_singleton] at hc
      subst hc
      exact digitChar_isDigit n h
    · intro c hc
      rcases List.mem_append.1 hc with h1 | h2
      · exact ih (n / 10) (Nat.div_lt_self (by omega) (by norm_num)) c h1
      · simp only [List.mem_singleton] at h2
        subst h2
        exact digitChar_isDigit (n % 10) (Nat.mod_lt _ (by norm_num))

/-- Every character of the zero-padded rendering is a digit. -/
theorem pad3_isDigit (n : ℕ) : ∀ c ∈ pad3 n, c.isDigit = true := by
  intro c hc
  rcases List.mem_append.1 hc with h1 | h2
  · rw [List.eq_of_mem_replicate h1]
    decide
  · exact natDigits_isDigit n c h2

/-- Folding the digit-reading step over digits of `n` starting from
accumulator `a` yields `a` shifted left of `n`. -/
theorem foldl_natDigits (n : ℕ) :
    ∀ a : ℕ, List.foldl (fun acc c => 10 * acc + (c.toNat - 48)) a
      (natDigits n) = a * 10 ^ (natDigits n).length + n := by
  induction n using Nat.strong_induction_on with
  | _ n ih =>
    intro a
    rw [natDigits]
    split_ifs with h
    · simp [digitChar_toNat n h]
      ring
    · rw [List.foldl_append]
      rw [ih (n / 10) (Nat.div_lt_self (by omega) (by norm_num)) a]
      simp only [List.foldl_cons, List.foldl_nil, List.length_append,
        List.length_singleton]
      rw [digitChar_toNat (n % 10) (Nat.mod_lt _ (by norm_num))]
      have hmod : 48 + n % 10 - 48 = n % 10 := by omega
      rw [hmod]
      have : 10 * (a * 10 ^ (natDigits (n / 10)).length + n / 10) + n % 10 =
          a * 10 ^ ((natDigits (n / 10)).length + 1) + (10 * (n / 10) + n % 10) := by
        ring
      rw [this, Nat.div_add_mod]

/-- The decimal rendering decodes to its value. -/
theorem digitsVal_natDigits (n : ℕ) : digitsVal (natDigits n) = n := by
  rw [digitsVal, foldl_natDigits n 0]
  simp

/-- The zero-padded rendering decodes to its value. -/
theorem digitsVal_pad3 (n : ℕ) : digitsVal (pad3 n) = n := by
  rw [pad3, digitsVal, List.foldl_append]
  have hz : ∀ k : ℕ, List.foldl (fun acc c => 10 * acc + (c.toNat - 48)) 0
      (List.replicate k '0') = 0 := by
    intro k
    induction k with
    | zero => rfl
    | succ k ihk => simpa [List.replicate_succ] using ihk
  rw [hz]
  exact digitsVal_natDigits n

/-- Zero-padding is injective. -/
theorem pad3_inj {m n : ℕ} (h : pad3 m = pad3 n) : m = n := by
  have := congrArg digitsVal h
  rwa [digitsVal_pad3, digitsVal_pad3] at this

/-- A digit run followed by an underscore determines the split: two equal
lists of the shape `digits ++ '_' :: rest` have equal digit runs and equal
rests. -/
theorem digits_underscore_inj :
    ∀ (d1 d2 u1 u2 : List Char), (∀ c ∈ d1, c.isDigit = true) →
      (∀ c ∈ d2, c.isDigit = true) →
      d1 ++ '_' :: u1 = d2 ++ '_' :: u2 → d1 = d2 ∧ u1 = u2
  | [], [], u1, u2, _, _, h => by
    simp only [List.nil_append, List.cons.injEq] at h
    exact ⟨rfl, h.2⟩
  | [], c :: d2, u1, u2, _, hd2, h => by
    simp only [List.nil_append, List.cons_append, List.cons.injEq] at h
    have : ('_' : Char).isDigit = true := by
      rw [h.1]
      exact hd2 c (List.mem_cons_self _ _)
    exact absurd this (by decide)
  | c :: d1, [], u1, u2, hd1, _, h => by
    simp only [List.nil_append, List.cons_append, List.cons.injEq] at h
    have : ('_' : Char).isDigit = true := by
      rw [← h.1]
      exact hd1 c (List.mem_cons_self _ _)
    exact absurd this (by decide)
  | c1 :: d1, c2 :: d2, u1, u2, hd1, hd2, h => by
    simp only [List.cons_append, List.cons.injEq] at h
    obtain ⟨e1, e2⟩ := digits_underscore_inj d1 d2 u1 u2
      (fun c hc => hd1 c (List.mem_cons_of_mem _ hc))
      (fun c hc => hd2 c (List.mem_cons_of_mem _ hc)) h.2
    exact ⟨by rw [h.1, e1], e2⟩

/-- The clip file name determines the stem and the segment index. -/
theorem out_name_inj {s1 s2 : String} {i j : ℕ}
    (h : out_name s1 i = out_name s2 j) : s1 = s2 ∧ i = j := by
  have hd := congrArg String.data h
  simp only [out_name, String.data_append] at hd
  have hmk : ∀ l : List Char, (String.mk l).data = l := fun l => rfl
  rw [hmk, hmk] at hd
  -- regroup and cancel the common ".mp4" suffix
  have hd2 : (s1.data ++ "_scene_".data ++ pad3 i) ++ ".mp4".data =
      (s2.data ++ "_scene_".data ++ pad3 j) ++ ".mp4".data := by
    simpa [List.append_assoc] using hd
  have hd3 := List.append_cancel_right hd2
  -- reverse; the reversed separator starts with an underscore
  have hrev := congrArg List.reverse hd3
  simp only [List.reverse_append] at hrev
  obtain ⟨e1, e2⟩ := digits_underscore_inj ((pad3 i).reverse) ((pad3 j).reverse)
    (['e', 'n', 'e', 'c', 's', '_'] ++ s1.data.reverse)
    (['e', 'n', 'e', 'c', 's', '_'] ++ s2.data.reverse)
    (fun c hc => pad3_isDigit i c (List.mem_reverse.1 hc))
    (fun c hc => pad3_isDigit j c (List.mem_reverse.1 hc)) hrev
  constructor
  · have := List.append_cancel_left e2
    exact String.ext (List.reverse_injective this)
  · exact pad3_inj (List.reverse_injective e1)

/-- C7 (amended): within one input file the pre-computed clip output paths
are always pairwise distinct, and across files they are pairwise distinct
provided the input files' stems (file names without final suffix) are
pairwise distinct; with duplicate stems distinct input files map segments to
the same output path. -/
theorem clip_out_paths_nodup (files : List (String × List (ℚ × ℚ)))
    (h : (files.map (fun f => path_stem f.1)).Nodup) :
    (clip_out_paths files).Nodup := by
  rw [clip_out_paths, List.nodup_flatMap]
  constructor
  · intro x hx
    apply List.Nodup.map_on
    · intro a _ b _ hab
      have := (out_name_inj hab).2
      omega
    · exact List.nodup_range _
  · have hpw : files.Pairwise (fun a b => path_stem a.1 ≠ path_stem b.1) :=
      List.pairwise_map.1 h
    refine hpw.imp ?_
    intro a b hne x hxa hxb
    obtain ⟨i, _, hia⟩ := List.mem_map.1 hxa
    obtain ⟨j, _, hjb⟩ := List.mem_map.1 hxb
    exact hne (out_name_inj (hia.trans hjb.symm)).1

theorem clip_out_paths_nodup_witness :
    (clip_out_paths [("a.mp4", [(0, 10)]), ("b.mp4", [(0, 7)])]).Nodup :=
  clip_out_paths_nodup [("a.mp4", [(0, 10)]), ("b.mp4", [(0, 7)])] (by decide)

/-- C7 counterexample to the claim as stated: two distinct input files with
the same stem (here `a/video.mp4` and `b/video.mp4`) yield the same
pre-computed clip output path for their first segments, so the paths of a
run are not always pairwise distinct. -/
theorem clip_out_paths_counterexample :
    clip_out_paths [("a/video.mp4", [(0, 10)]), ("b/video.mp4", [(0, 10)])] =
      ["video_scene_001.mp4", "video_scene_001.mp4"] ∧
      ¬ (clip_out_paths [("a/video.mp4", [(0, 10)]),
          ("b/video.mp4", [(0, 10)])]).Nodup := by
  have hone : natDigits 1 = ['1'] := by
    rw [natDigits]
    norm_num
  have hout : out_name "video" 1 = "video_scene_001.mp4" := by
    rw [out_name, pad3, hone]
    rfl
  have hstep : clip_out_paths [("a/video.mp4", [(0, 10)]),
      ("b/video.mp4", [(0, 10)])] = [out_name "video" 1, out_name "video" 1] := rfl
  rw [hstep, hout]
  constructor
  · rfl
  · simp

end ClipCrafter
